import Mathlib

/-
Verification of the pkgcheck execution engine against its specification.

The development shallowly embeds the engine's core components:
  * the versioned cache store (`caches.py`),
  * the entity sources and their filters (`sources.py`),
  * the check lifecycle runner and the pipeline scheduler (`pipeline.py`),
  * the git history parsing and cache update logic (`git.py`),
and proves the specified properties about these embeddings.  Definitions
come first, followed by all theorems.
-/

namespace Pkgcheck

/-! ## Definitions: cache store (`caches.py`) -/

/-- Cache object as persisted on disk by `save_cache`: the pickled object
carries a `version` attribute (proxied from the registered `CacheData`
triple) together with its payload. -/
structure CacheObj (α : Type) where
  version : Nat
  data : α
deriving DecidableEq, Repr

/-- State of a cache file on disk: absent, present but failing to unpickle
(any decode error, including a loaded object lacking a usable `version`
attribute), or a well-formed pickled cache object. -/
inductive FileState (α : Type) where
  | missing
  | corrupt
  | valid (obj : CacheObj α)
deriving DecidableEq, Repr

/-- Result of `load_cache`: the returned value, whether `os.remove` was
invoked on a stale file, and the on-disk state afterwards. -/
structure LoadResult (α : Type) where
  result : Option (CacheObj α)
  deleted : Bool
  fs : FileState α
deriving DecidableEq, Repr

/-- Shallow embedding of `CachedAddon.load_cache` (caches.py:69-87).
`cache = fallback`; opening a missing file raises `FileNotFoundError`
which is passed over; any other decode failure removes the file and keeps
the fallback; a decoded object whose `version` differs from the registered
version is removed and the fallback kept; otherwise the decoded object is
returned. -/
def load_cache (fs : FileState α) (regVersion : Nat)
    (fallback : Option (CacheObj α)) : LoadResult α :=
  match fs with
  | .missing => ⟨fallback, false, .missing⟩
  | .corrupt => ⟨fallback, true, .missing⟩
  | .valid obj =>
      if obj.version ≠ regVersion then ⟨fallback, true, .missing⟩
      else ⟨some obj, false, .valid obj⟩

/-- Filesystem state relevant to `save_cache`: whether the parent directory
of the cache path exists, and the cache file contents. -/
structure CacheFS (α : Type) where
  dirExists : Bool
  file : FileState α
deriving DecidableEq, Repr

/-- Error message raised by `save_cache` on an `IOError`
(caches.py:95): `f'failed dumping {type} cache: {path!r}: {strerror}'`. -/
def saveErrMsg (ctype path strerror : String) : String :=
  ("failed dumping " ++ ctype ++ " cache: '") ++ path ++ ("': " ++ strerror)

/-- Shallow embedding of `CachedAddon.save_cache` (caches.py:89-96):
`os.makedirs(..., exist_ok=True)` then an atomic pickle write; an `IOError`
(modelled by `writeOk = false`, with `strerror` the failure text) is
re-raised as a `UserException` whose message names the failed path. -/
def save_cache (obj : CacheObj α) (ctype path strerror : String)
    (writeOk : Bool) (_fs : CacheFS α) : Except String (CacheFS α) :=
  if writeOk then .ok ⟨true, .valid obj⟩
  else .error (saveErrMsg ctype path strerror)

/-! ## Definitions: entity sources (`sources.py`) -/

/-- Package entity as consumed by the source filters: its package identity
(`pkg.key`), slot, live (version-control) flag, and version. The filters
never compare versions themselves (sources are expected to yield versions
in ascending order); `ver` only serves to distinguish entities. -/
structure Pkg where
  key : String
  slot : String
  live : Bool
  ver : Nat
deriving DecidableEq, Repr

/-- Slot key used by `LatestPkgsFilter.__next__` (sources.py:93-97): live
packages are filed under `selected_pkgs[f'vcs-{pkg.slot}']`, the rest under
`selected_pkgs[pkg.slot]`. -/
def selKey (p : Pkg) : String :=
  if p.live then "vcs-" ++ p.slot else p.slot

/-- Assignment into an insertion-ordered dictionary represented as an
association list: `m[k] = v` replaces the value in place when the key is
already present and appends a new entry otherwise, mirroring Python dict
semantics. -/
def dictSet [DecidableEq κ] (m : List (κ × α)) (k : κ) (v : α) : List (κ × α) :=
  match m with
  | [] => [(k, v)]
  | e :: rest => if e.1 = k then (k, v) :: rest else e :: dictSet rest k v

/-- Decomposition of a stream into maximal runs of entities whose key equals
the key of the run's first entity, exactly as `LatestPkgsFilter.__next__`
consumes its source (`while key == pkg.key`, sources.py:93) and as
`_CombinedSource.itermatch` chunks its stream (sources.py:267-280). -/
def runsBy [DecidableEq β] (f : α → β) : List α → List (List α)
  | [] => []
  | p :: rest =>
      (p :: rest.takeWhile (fun q => f q = f p)) ::
        runsBy f (rest.dropWhile (fun q => f q = f p))
termination_by l => l.length
decreasing_by
  simpa [Nat.lt_succ_iff] using ((rest.dropWhile_sublist _).length_le)

/-- Accumulation of a run of packages into the `selected_pkgs` dictionary:
`selected_pkgs[slot key] = pkg` for each package in stream order
(sources.py:93-97). -/
def foldDict (run : List Pkg) (m : List (String × Pkg)) : List (String × Pkg) :=
  run.foldl (fun m p => dictSet m (selKey p) p) m

/-- Reduction of one same-key run by `LatestPkgsFilter` in non-partial mode
(sources.py:88-116): fold the run into the insertion-ordered `selected_pkgs`
dictionary under the slot key and emit the dictionary's values (the
`partial_filtered=True` branch is not modelled). -/
def selectRun (run : List Pkg) : List Pkg :=
  (foldDict run []).map Prod.snd

/-- Values stored in an association-list dictionary under a given key. -/
def valsAt [DecidableEq κ] (m : List (κ × α)) (k : κ) : List α :=
  (m.filter (fun e => e.1 = k)).map Prod.snd

/-- Shallow embedding of iterating `LatestPkgsFilter` in non-partial mode
over a whole stream: each maximal run of same-identity packages is reduced
by `selectRun` and the reduced runs are emitted in stream order. -/
def latestPkgsFilter (l : List Pkg) : List Pkg :=
  (runsBy Pkg.key l).flatMap selectRun

/-- Entries of the `selected_pkgs` dictionary are filed under their own slot
key. -/
def dictWF (m : List (String × Pkg)) : Prop :=
  ∀ e ∈ m, selKey e.2 = e.1

/-- Loop body of `_FilteredSource.itermatch` (sources.py:309-318): starting
from `key = None`, the previous key is yielded whenever the key function's
value changes, and the final key is yielded after the stream ends. -/
def filteredKeysAux [DecidableEq κ] (key : Option κ) : List κ → List κ
  | [] => key.toList
  | k :: rest =>
      if some k = key then filteredKeysAux key rest
      else key.toList ++ filteredKeysAux (some k) rest

/-- Deduplicating source stream: `UnversionedSource` and `VersionedSource`
instantiate `_FilteredSource` with the unversioned- resp. versioned-atom
key function and yield the filtered key stream. -/
def filteredSource [DecidableEq κ] (f : α → κ) (l : List α) : List κ :=
  filteredKeysAux none (l.map f)

/-! ## Definitions: check lifecycle runner (`pipeline.py`) -/

/-- Metadata-extraction failure raised by a check call, mirroring
`MetadataException` with its `pkg`, `attr` and `error` attributes; the
entity is abstracted as a natural number and the error by its text. -/
structure MetaExc where
  pkg : Nat
  attr : String
  error : String
deriving DecidableEq, Repr

/-- Finding pushed through the pipeline.  The `MetadataError` shape is
modelled from the spec: `results.py` is not among the embedded sources, and
per the spec a thrown metadata-extraction error is converted into a
synthetic metadata-error finding carrying the attribute, the flattened
error text and the entity.  Ordinary check findings are opaque. -/
inductive CheckResult where
  | finding (n : Nat)
  | metadataError (attr : String) (msg : String) (pkg : Nat)
deriving DecidableEq, Repr

/-- Outcome of one `check.start()` or `check.feed(item)` call: either a
list of reports or a raised `MetadataException`. -/
inductive Outcome where
  | ok (reports : List Nat)
  | exc (e : MetaExc)
deriving DecidableEq, Repr

/-- Split of a character sequence on the newline character, as
`str.split('\n')` does: splitting the empty text yields one empty group. -/
def splitNl : List Char → List (List Char)
  | [] => [[]]
  | c :: rest =>
      match splitNl rest with
      | [] => [[]]
      | g :: gs => if c = '\n' then [] :: g :: gs else (c :: g) :: gs

/-- Flattening of the error text performed before reporting
(pipeline.py:158): `': '.join(str(e.error).split('\n'))`, modelled over the
character list of the error string. -/
def errorStr (s : String) : String :=
  String.mk (List.intercalate [':', ' '] (splitNl s.data))

/-- Handling of one check call by `CheckRunner.start` and `CheckRunner.run`
(pipeline.py:148-175): returned reports are yielded as findings; a raised
`MetadataException` is converted into a `MetadataError` finding keyed by
`(e.pkg, e.error)` unless that key is already in the `_metadata_errors`
dedup set, in which case nothing is yielded. -/
def handleCall (st : List (Nat × String)) (o : Outcome) :
    List (Nat × String) × List CheckResult :=
  match o with
  | .ok reports => (st, reports.map CheckResult.finding)
  | .exc e =>
      if (e.pkg, e.error) ∈ st then (st, [])
      else ((e.pkg, e.error) :: st,
        [CheckResult.metadataError e.attr (errorStr e.error) e.pkg])

/-- Sequential handling of a list of check calls, threading the
`_metadata_errors` dedup set and accumulating findings in order. -/
def handleCalls (st : List (Nat × String)) :
    List Outcome → List (Nat × String) × List CheckResult
  | [] => (st, [])
  | o :: rest =>
      let r := handleCall st o
      let r' := handleCalls r.1 rest
      (r'.1, r.2 ++ r'.2)

/-- Shallow embedding of `CheckRunner.start` (pipeline.py:147-159): one
outcome per attached check, handled in order with dedup. -/
def runnerStart (st : List (Nat × String)) (outcomes : List Outcome) :
    List (Nat × String) × List CheckResult :=
  handleCalls st outcomes

/-- Feed handling of one streamed item (all attached checks in order),
as performed by the loop body of `CheckRunner.run` (pipeline.py:163-175). -/
def feedStep (acc : List (Nat × String) × List CheckResult)
    (item : List Outcome) : List (Nat × String) × List CheckResult :=
  let r := handleCalls acc.1 item
  (r.1, acc.2 ++ r.2)

/-- Feed phase of `CheckRunner.run`: every streamed item is fed to every
check, with metadata-error interception and dedup. -/
def feedFold (st : List (Nat × String)) (items : List (List Outcome)) :
    List (Nat × String) × List CheckResult :=
  items.foldl feedStep (st, [])

/-- Shallow embedding of `CheckRunner.run` (pipeline.py:161-182): the feed
phase over the streamed items, after which each metadata error buffered in
the source's `metadata_errors` list is reported — without consulting or
updating the dedup set — and the buffer is cleared.  Returns the new dedup
set, the cleared source buffer, and the findings in order. -/
def runnerRun (st : List (Nat × String)) (items : List (List Outcome))
    (srcErrs : List MetaExc) :
    List (Nat × String) × List MetaExc × List CheckResult :=
  let r := feedFold st items
  (r.1, ([] : List MetaExc),
    r.2 ++ srcErrs.map (fun e =>
      CheckResult.metadataError e.attr (errorStr e.error) e.pkg))

/-- Accumulation of one `run()` call into a runner lifetime: the dedup set
persists, the findings are appended. -/
def lifeStep (acc : List (Nat × String) × List CheckResult)
    (r : List (List Outcome) × List MetaExc) :
    List (Nat × String) × List CheckResult :=
  let q := runnerRun acc.1 r.1 r.2
  (q.1, acc.2 ++ q.2.2)

/-- One runner lifetime: a `start()` call with a fresh (empty) dedup set
followed by a sequence of `run()` calls, each with its streamed feed
outcomes and the source's buffered metadata errors at drain time. -/
def runnerLife (s : List Outcome)
    (runs : List (List (List Outcome) × List MetaExc)) : List CheckResult :=
  (runs.foldl lifeStep (runnerStart [] s)).2

/-- Number of metadata-error findings in a result list. -/
def countMeta (rs : List CheckResult) : Nat :=
  (rs.filter (fun r => match r with
    | .metadataError _ _ _ => true
    | _ => false)).length

/-- Dedup keys `(e.pkg, e.error)` of the exceptions raised among a list of
call outcomes. -/
def excKeys (os : List Outcome) : List (Nat × String) :=
  os.filterMap (fun o => match o with
    | .exc e => some (e.pkg, e.error)
    | .ok _ => none)

/-! ## Definitions: pipeline scheduler (`pipeline.py`) -/

/-- Scan scopes.  Modelled from the spec: `base.py` is not among the
embedded sources; per the spec the scope is a small totally ordered
enumeration `eclass < version < package < category < repository`, compared
by the scheduler with `==` and `<=`. -/
def version_scope : Nat := 1

/-- Package scope, strictly above version scope.  Modelled from the spec. -/
def package_scope : Nat := 2

/-- Category scope, strictly above package scope.  Modelled from the spec. -/
def category_scope : Nat := 3

/-- Abstract check runner as seen by the scheduler: the findings its
`start()` and `finish()` calls yield, and the findings `run(restrict)`
yields for each restriction (restrictions and findings are abstracted as
natural numbers). -/
structure RunnerPipe where
  startR : List Nat
  runR : Nat → List Nat
  finR : List Nat

/-- Input of `Pipeline.run`: the scan scope, the optional explicit job
count (`options.jobs`), the scan restriction, the scope-to-runners mapping
in insertion order (`self.pipes`), and the identities yielded by
`VersionedSource` resp. `UnversionedSource` for the restriction. -/
structure ScanConfig where
  scanScope : Nat
  jobsOpt : Option Nat
  restrict : Nat
  pipes : List (Nat × List RunnerPipe)
  versionedIds : List Nat
  unversionedIds : List Nat

/-- Removal of the i-th element of a list, if present. -/
def pickIdx : List α → Nat → Option (α × List α)
  | [], _ => none
  | a :: rest, 0 => some (a, rest)
  | a :: rest, n + 1 =>
      match pickIdx rest n with
      | none => none
      | some (b, rest') => some (b, a :: rest')

/-- Reordering of concurrent task results by a completion schedule: the
schedule picks the next completed task by position; out-of-range entries
are skipped and unpicked tasks follow in submission order.  Every schedule
yields a permutation of the tasks; this models `as_completed` collection
and concurrent arrival on the results queue. -/
def applyPerm (sched : List Nat) (l : List α) : List α :=
  match sched with
  | [] => l
  | i :: is =>
      match pickIdx l i with
      | none => applyPerm is l
      | some (a, rest) => a :: applyPerm is rest

/-- All runners across scopes in registration order:
`chain.from_iterable(self.pipes.values())`. -/
def allPipes (cfg : ScanConfig) : List RunnerPipe :=
  (cfg.pipes.map Prod.snd).flatten

/-- Serial run of a list of runners against one restriction with a single
conditional push: `results = []; for pipe in ...: results.extend(
pipe.run(restrict))` then `if results: results_q.put(results)`. -/
def serialRunMsgs (ps : List RunnerPipe) (restrict : Nat) :
    List (Option (List Nat)) :=
  let rs := ps.flatMap (fun p => p.runR restrict)
  if rs.isEmpty then [] else [some rs]

/-- Start block of `Pipeline.run` (pipeline.py:63-67). -/
def startMsgs (cfg : ScanConfig) : List (Option (List Nat)) :=
  let rs := (allPipes cfg).flatMap (fun p => p.startR)
  if rs.isEmpty then [] else [some rs]

/-- Finish block of `Pipeline.run` (pipeline.py:131-135). -/
def finishMsgs (cfg : ScanConfig) : List (Option (List Nat)) :=
  let rs := (allPipes cfg).flatMap (fun p => p.finR)
  if rs.isEmpty then [] else [some rs]

/-- Dispatch branch of `Pipeline.run` (pipeline.py:69-129).  Version scope:
serial run of all runners.  Package scope: serial when no explicit job
count was requested; otherwise one task per versioned identity over the
non-package-scope runners plus one task per package-scope runner, collected
with `as_completed` (modelled by `sched`) and pushed as a single
unconditional batch.  Category scope and coarser: the package-level-or-finer
runners run in a producer/worker pool which pushes one batch per
unversioned identity in arrival order (modelled by `sched`), then the
coarser runners run serially. -/
def runMsgs (cfg : ScanConfig) (sched : List Nat) : List (Option (List Nat)) :=
  if cfg.scanScope = version_scope then
    serialRunMsgs (allPipes cfg) cfg.restrict
  else if cfg.scanScope = package_scope then
    match cfg.jobsOpt with
    | none => serialRunMsgs (allPipes cfg) cfg.restrict
    | some _ =>
        let pkgChecks :=
          ((cfg.pipes.filter (fun sp => sp.1 = package_scope)).map Prod.snd).flatten
        let versionChecks :=
          ((cfg.pipes.filter (fun sp => ¬(sp.1 = package_scope))).map Prod.snd).flatten
        let tasks :=
          cfg.versionedIds.map (fun r => versionChecks.flatMap (fun p => p.runR r)) ++
            pkgChecks.map (fun p => p.runR cfg.restrict)
        [some (applyPerm sched tasks).flatten]
  else
    let pkgChecks :=
      ((cfg.pipes.filter (fun sp => sp.1 ≤ package_scope)).map Prod.snd).flatten
    let nonPkgChecks :=
      ((cfg.pipes.filter (fun sp => ¬(sp.1 ≤ package_scope))).map Prod.snd).flatten
    (if pkgChecks.isEmpty then []
      else applyPerm sched (cfg.unversionedIds.map
        (fun i => some (pkgChecks.flatMap (fun p => p.runR i))))) ++
      serialRunMsgs nonPkgChecks cfg.restrict

/-- Shallow embedding of `Pipeline.run` (pipeline.py:62-137): the start
block, the scope dispatch, the finish block, and the terminal `None`
marker, in statement order.  `sched` abstracts the completion/arrival order
of concurrently executed tasks; the master thread blocks on `p.join()` and
`pool.join()` (resp. `as_completed`) before leaving the dispatch branch, so
every concurrent push happens inside it. -/
def pipelineRun (cfg : ScanConfig) (sched : List Nat) : List (Option (List Nat)) :=
  startMsgs cfg ++ runMsgs cfg sched ++ finishMsgs cfg ++ [none]

/-- Sample scan configuration at version scope, used to instantiate the
scheduler theorems. -/
def sampleCfg : ScanConfig :=
  ⟨version_scope, none, 0, [(version_scope, [⟨[10], fun _ => [20], [30]⟩])], [], []⟩

/-! ## Definitions: producer / worker pool (`pipeline.py`) -/

/-- Queue content written by the producer `Pipeline._insert_pkgs`
(pipeline.py:45-50): every package identity matching the restriction, once,
in order, followed by one `None` sentinel per worker. -/
def producerOutput (ids : List Nat) (jobs : Nat) : List (Option Nat) :=
  ids.map some ++ List.replicate jobs none

/-- State of the producer/worker-pool phase: the remaining queue content,
the per-worker running flags, and the identities processed so far (each
processed identity is run through every package-level runner by
`Pipeline._run_checks`). -/
structure PoolState where
  queue : List (Option Nat)
  active : List Bool
  processed : List Nat
deriving DecidableEq, Repr

/-- Initial pool state: the producer's queue, `jobs` running workers,
nothing processed. -/
def initPool (ids : List Nat) (jobs : Nat) : PoolState :=
  ⟨producerOutput ids jobs, List.replicate jobs true, []⟩

/-- One scheduling step of `Pipeline._run_checks` (pipeline.py:52-60):
worker `w`, when still running, pops the queue head; an identity is
processed and its results pushed, a `None` sentinel makes the worker
return.  A finished worker leaves the state unchanged; an empty queue
blocks the pop (shown unreachable while a worker is active). -/
def poolStep (s : PoolState) (w : Nat) : PoolState :=
  if s.active.getD w false then
    match s.queue with
    | some p :: rest => ⟨rest, s.active, s.processed ++ [p]⟩
    | none :: rest => ⟨rest, s.active.set w false, s.processed⟩
    | [] => s
  else s

/-- Execution of the pool under an arbitrary worker schedule. -/
def poolRun (s : PoolState) (sched : List Nat) : PoolState :=
  sched.foldl poolStep s

/-- Index of the first still-running worker, if any. -/
def firstActive : List Bool → Option Nat
  | [] => none
  | true :: _ => some 0
  | false :: rest => (firstActive rest).map (· + 1)

/-- Complete execution: repeatedly schedule a running worker until all
workers have exited; the fuel bounds the number of steps. -/
def poolComplete : Nat → PoolState → PoolState
  | 0, s => s
  | fuel + 1, s =>
      match firstActive s.active with
      | none => s
      | some w => poolComplete fuel (poolStep s w)

/-- Invariant of the producer/worker pool: the queue consists of the
pending identities followed by the pending sentinels; the pending
identities are exactly the unprocessed suffix of the producer's identity
list; the pending sentinel count equals the running-worker count; no
sentinel is consumed before the identities are (once a sentinel has been
consumed the pending identities are gone for good). -/
def PoolInv (ids : List Nat) (jobs : Nat) (s : PoolState) : Prop :=
  ∃ pending k,
    s.queue = pending.map some ++ List.replicate k none ∧
    s.processed ++ pending = ids ∧
    k = s.active.count true ∧
    s.active.length = jobs ∧
    (k = jobs ∨ pending = [])

/-! ## Definitions: git history parsing and cache update (`git.py`) -/

/-- One matched `--name-status` line of git log output, as classified by
`_git_log_regex` (git.py:119-121): an A/D/M status change with its ebuild
path, an R (rename) status change with the old and the new path, or a line
matching neither.  Atom construction — `atom_cls(f'={category}/{pn}')` —
belongs to the excluded parsing layer and may raise `MalformedAtom`; it is
abstracted by storing the parse result (`none` = malformed). -/
inductive LogLine where
  | adm (status : Char) (pkg : Option String)
  | ren (old : Option String) (next : Option String)
  | other
deriving DecidableEq, Repr

/-- Package change record queued by `GitRepoPkgs._pkg_changes`
(git.py:209-241): the atom, the status character, the commit hash and date,
and — for local-mode renames — the old atom carried as extra data. -/
structure GitPkgChange where
  atom : String
  status : Char
  commit : String
  commitDate : String
  oldPkg : Option String
deriving DecidableEq, Repr

/-- Changes queued for one log line by `_pkg_changes` (git.py:212-239): an
A/D/M line with a well-formed atom queues one record; in non-local mode an
R line with two well-formed atoms queues an addition of the new atom
followed by a removal of the old one; in local mode it queues a single `R`
record carrying the old atom; a `MalformedAtom` raised while parsing either
path of a change skips the whole line, as do unmatched lines. -/
def pkgChangesOfLine (isLocal : Bool) (hash date : String) :
    LogLine → List GitPkgChange
  | .adm st (some a) => [⟨a, st, hash, date, none⟩]
  | .adm _ none => []
  | .ren (some o) (some n) =>
      if isLocal then [⟨n, 'R', hash, date, some o⟩]
      else [⟨n, 'A', hash, date, none⟩, ⟨o, 'D', hash, date, none⟩]
  | .ren _ _ => []
  | .other => []

/-- All package changes of one commit, in line order (git.py:209-241). -/
def pkgChangesOfCommit (isLocal : Bool) (hash date : String)
    (lines : List LogLine) : List GitPkgChange :=
  lines.flatMap (pkgChangesOfLine isLocal hash date)

/-- One commit of the repository history, oldest first: hash, date and the
matched file-change lines. -/
structure Commit where
  hash : String
  date : String
  lines : List LogLine
deriving DecidableEq, Repr

/-- Commits covered by the git log commit range: `{stored}..origin/HEAD` —
the commits strictly after the stored one — when a stored revision exists,
and the full history (`origin/HEAD`) otherwise (git.py:565-570). -/
def commitRange (stored : Option String) (history : List Commit) :
    List Commit :=
  match stored with
  | none => history
  | some s => (history.dropWhile (fun c => ¬(c.hash = s))).tail

/-- Entry of the cached history data for one package change.  The nested
`data.setdefault(category, {}).setdefault(package, {}).setdefault(status,
[]).append(commit)` of git.py:542-543 is flattened to a record list in
insertion order; the grouping by category/package/status is not modelled. -/
structure HistEntry where
  atom : String
  status : Char
  date : String
  commit : String
deriving DecidableEq, Repr

/-- Dedup-and-append loop of `GitAddon.pkg_history` (git.py:530-543): each
`(atom, status)` key is recorded at most once per walk (the `seen` set is
fresh for every walk), appending to the supplied data. -/
def pkgHistoryAux (seen : List (String × Char)) (data : List HistEntry) :
    List GitPkgChange → List HistEntry
  | [] => data
  | ch :: rest =>
      if (ch.atom, ch.status) ∈ seen then pkgHistoryAux seen data rest
      else pkgHistoryAux ((ch.atom, ch.status) :: seen)
        (data ++ [⟨ch.atom, ch.status, ch.commitDate, ch.commit⟩]) rest

/-- Shallow embedding of `GitAddon.pkg_history` (git.py:525-544): parse the
given commits into package changes and fold them into the given data with
per-walk `(atom, status)` dedup. -/
def pkg_history (isLocal : Bool) (commits : List Commit)
    (data : List HistEntry) : List HistEntry :=
  pkgHistoryAux [] data
    (commits.flatMap (fun c => pkgChangesOfCommit isLocal c.hash c.date c.lines))

/-- Git cache record: payload plus the commit hash it is stamped with. -/
structure GitCacheRec where
  commit : String
  data : List HistEntry
deriving DecidableEq, Repr

/-- Result of one `GitAddon.update_cache` pass over a repository: the
commits actually parsed, the in-memory `git_cache` afterwards, and whether
the record was pushed to disk. -/
structure UpdateResult where
  parsed : List Commit
  cache : Option GitCacheRec
  saved : Bool
deriving DecidableEq, Repr

/-- Shallow embedding of `GitAddon.update_cache` (git.py:546-585) for one
repository: `head` is `git rev-parse origin/HEAD`, `prior` the cache loaded
from disk (`None` when missing or stale).  A missing cache walks the whole
history; a cache stamped with a different commit extends its data by
parsing `{stored}..origin/HEAD` only; an up-to-date cache is neither walked
nor re-saved.  The record is pushed to disk only when it was created or
updated (and, `if git_cache:` being dict truthiness, only when its data is
non-empty). -/
def update_cache (head : String) (history : List Commit)
    (prior : Option GitCacheRec) : UpdateResult :=
  match prior with
  | none =>
      let parsed := commitRange none history
      let data := pkg_history false parsed []
      ⟨parsed, some ⟨head, data⟩, !data.isEmpty⟩
  | some gc =>
      if gc.commit = head then ⟨[], some gc, false⟩
      else
        let parsed := commitRange (some gc.commit) history
        let data := pkg_history false parsed gc.data
        ⟨parsed, some ⟨head, data⟩, !data.isEmpty⟩

/-! ## Theorems -/

/-- C3: `load_cache` returns the saved payload exactly when the file exists,
decodes and carries the registered version; it returns the fallback when the
file is missing, corrupt, or version-mismatched; and the stale file is
deleted exactly in the corruption and version-mismatch cases. -/
theorem load_cache_spec (α : Type) (v : Nat) (fb : Option (CacheObj α))
    (obj : CacheObj α) :
    load_cache (FileState.missing) v fb = ⟨fb, false, FileState.missing⟩ ∧
    load_cache (FileState.corrupt) v fb = ⟨fb, true, FileState.missing⟩ ∧
    (obj.version = v →
      load_cache (FileState.valid obj) v fb = ⟨some obj, false, FileState.valid obj⟩) ∧
    (obj.version ≠ v →
      load_cache (FileState.valid obj) v fb = ⟨fb, true, FileState.missing⟩) := by
  refine ⟨rfl, rfl, fun h => ?_, fun h => ?_⟩
  · simp [load_cache, h]
  · simp [load_cache, h]

/-- Witness for `load_cache_spec` at a concrete cache object and version. -/
theorem load_cache_spec_witness :
    load_cache (FileState.missing) 1 (none : Option (CacheObj Nat)) =
      ⟨none, false, FileState.missing⟩ ∧
    load_cache (FileState.corrupt) 1 (none : Option (CacheObj Nat)) =
      ⟨none, true, FileState.missing⟩ ∧
    ((1 : Nat) = 1 →
      load_cache (FileState.valid (⟨1, 7⟩ : CacheObj Nat)) 1 none =
        ⟨some ⟨1, 7⟩, false, FileState.valid ⟨1, 7⟩⟩) ∧
    ((2 : Nat) ≠ 1 →
      load_cache (FileState.valid (⟨2, 7⟩ : CacheObj Nat)) 1 none =
        ⟨none, true, FileState.missing⟩) := by
  obtain ⟨h1, h2, h3, h4⟩ := load_cache_spec Nat 1 none (⟨1, 7⟩ : CacheObj Nat)
  obtain ⟨_, _, _, h4'⟩ := load_cache_spec Nat 1 none (⟨2, 7⟩ : CacheObj Nat)
  exact ⟨h1, h2, fun _ => h3 rfl, fun _ => h4' (by decide)⟩

/-- C4: saving a cache object whose version tag equals the registered version
and then loading it back returns the original payload unchanged, for any
fallback; a successful save creates the missing parent directories; a failed
underlying write raises a user-facing error whose message names the failed
path. -/
theorem save_load_round_trip (α : Type) (obj : CacheObj α)
    (t p e : String) (v : Nat) (fb : Option (CacheObj α)) (fs : CacheFS α)
    (hv : obj.version = v) :
    (save_cache obj t p e true fs = Except.ok ⟨true, FileState.valid obj⟩ ∧
      ∀ fs' : CacheFS α, save_cache obj t p e true fs = Except.ok fs' →
        load_cache fs'.file v fb = ⟨some obj, false, FileState.valid obj⟩) ∧
    (save_cache obj t p e false fs = Except.error (saveErrMsg t p e) ∧
      ∃ a b, saveErrMsg t p e = a ++ p ++ b) := by
  refine ⟨⟨rfl, fun fs' h => ?_⟩, rfl, ⟨"failed dumping " ++ t ++ " cache: '",
    "': " ++ e, rfl⟩⟩
  have : fs' = ⟨true, FileState.valid obj⟩ := by
    simpa [save_cache] using h.symm
  subst this
  simp [load_cache, hv]

/-- Witness for `save_load_round_trip` at a concrete payload and version. -/
theorem save_load_round_trip_witness :
    (save_cache (⟨3, 42⟩ : CacheObj Nat) "git" "/tmp/c" "err" true ⟨false, FileState.missing⟩ =
        Except.ok ⟨true, FileState.valid ⟨3, 42⟩⟩ ∧
      ∀ fs' : CacheFS Nat,
        save_cache (⟨3, 42⟩ : CacheObj Nat) "git" "/tmp/c" "err" true ⟨false, FileState.missing⟩ =
          Except.ok fs' →
        load_cache fs'.file 3 none = ⟨some ⟨3, 42⟩, false, FileState.valid ⟨3, 42⟩⟩) ∧
    (save_cache (⟨3, 42⟩ : CacheObj Nat) "git" "/tmp/c" "err" false ⟨false, FileState.missing⟩ =
        Except.error (saveErrMsg "git" "/tmp/c" "err") ∧
      ∃ a b, saveErrMsg "git" "/tmp/c" "err" = a ++ "/tmp/c" ++ b) :=
  save_load_round_trip Nat ⟨3, 42⟩ "git" "/tmp/c" "err" 3 none ⟨false, FileState.missing⟩ rfl

theorem dictSet_keys [DecidableEq κ] (m : List (κ × α)) (k : κ) (v : α) :
    (dictSet m k v).map Prod.fst =
      if k ∈ m.map Prod.fst then m.map Prod.fst else m.map Prod.fst ++ [k] := by
  induction m with
  | nil => simp [dictSet]
  | cons e rest ih =>
      by_cases h : e.1 = k
      · simp [dictSet, h]
      · have hne : ¬(k = e.1) := fun hh => h hh.symm
        simp only [dictSet, if_neg h, List.map_cons, ih, List.mem_cons]
        by_cases hk : k ∈ rest.map Prod.fst
        · simp [hk, hne]
        · simp [hk, hne]

theorem dictSet_keys_nodup [DecidableEq κ] (m : List (κ × α)) (k : κ) (v : α)
    (h : (m.map Prod.fst).Nodup) : ((dictSet m k v).map Prod.fst).Nodup := by
  rw [dictSet_keys]
  by_cases hk : k ∈ m.map Prod.fst
  · simpa [hk] using h
  · rw [if_neg hk, List.nodup_append]
    refine ⟨h, List.nodup_singleton k, ?_⟩
    intro a ha hae
    rw [List.mem_singleton] at hae
    exact hk (hae ▸ ha)

theorem dictSet_wf (m : List (String × Pkg)) (p : Pkg) (h : dictWF m) :
    dictWF (dictSet m (selKey p) p) := by
  induction m with
  | nil =>
      intro e he
      simp only [dictSet, List.mem_singleton] at he
      simp [he]
  | cons e0 rest ih =>
      intro e he
      by_cases h0 : e0.1 = selKey p
      · simp only [dictSet, if_pos h0, List.mem_cons] at he
        rcases he with he | he
        · simp [he]
        · exact h e (List.mem_cons_of_mem _ he)
      · simp only [dictSet, if_neg h0, List.mem_cons] at he
        rcases he with he | he
        · exact h e (he ▸ List.mem_cons_self _ _)
        · exact ih (fun e' he' => h e' (List.mem_cons_of_mem _ he')) e he

theorem valsAt_cons_eq [DecidableEq κ] (e : κ × α) (m : List (κ × α)) (k : κ)
    (h : e.1 = k) : valsAt (e :: m) k = e.2 :: valsAt m k := by
  simp [valsAt, List.filter_cons, h]

theorem valsAt_cons_ne [DecidableEq κ] (e : κ × α) (m : List (κ × α)) (k : κ)
    (h : ¬(e.1 = k)) : valsAt (e :: m) k = valsAt m k := by
  simp [valsAt, List.filter_cons, h]

theorem valsAt_not_mem [DecidableEq κ] (m : List (κ × α)) (k : κ) :
    k ∉ m.map Prod.fst → valsAt m k = [] := by
  induction m with
  | nil => intro _; rfl
  | cons e rest ih =>
      intro h
      simp only [List.map_cons, List.mem_cons, not_or] at h
      rw [valsAt_cons_ne e rest k (fun hh => h.1 hh.symm)]
      exact ih h.2

theorem valsAt_dictSet_self [DecidableEq κ] (m : List (κ × α)) (k : κ) (v : α) :
    (m.map Prod.fst).Nodup → valsAt (dictSet m k v) k = [v] := by
  induction m with
  | nil => intro _; simp [dictSet, valsAt]
  | cons e rest ih =>
      intro h
      rw [List.map_cons, List.nodup_cons] at h
      by_cases he : e.1 = k
      · simp only [dictSet, if_pos he]
        rw [valsAt_cons_eq _ _ _ rfl, valsAt_not_mem rest k (he ▸ h.1)]
      · simp only [dictSet, if_neg he]
        rw [valsAt_cons_ne e _ k he]
        exact ih h.2

theorem valsAt_dictSet_ne [DecidableEq κ] (m : List (κ × α)) (k k' : κ) (v : α) :
    ¬(k = k') → valsAt (dictSet m k v) k' = valsAt m k' := by
  induction m with
  | nil => intro h; simp [dictSet, valsAt, h]
  | cons e rest ih =>
      intro h
      by_cases he : e.1 = k
      · simp only [dictSet, if_pos he]
        rw [valsAt_cons_ne _ _ _ h, valsAt_cons_ne e _ _ (fun hh => h (he ▸ hh))]
      · simp only [dictSet, if_neg he]
        by_cases he' : e.1 = k'
        · rw [valsAt_cons_eq _ _ _ he', valsAt_cons_eq _ _ _ he', ih h]
        · rw [valsAt_cons_ne _ _ _ he', valsAt_cons_ne _ _ _ he', ih h]

theorem selval_filter (m : List (String × Pkg)) (k : String) :
    dictWF m → (m.map Prod.snd).filter (fun p => selKey p = k) = valsAt m k := by
  induction m with
  | nil => intro _; rfl
  | cons e rest ih =>
      intro h
      have he := h e (List.mem_cons_self _ _)
      have ih' := ih (fun e' h' => h e' (List.mem_cons_of_mem _ h'))
      by_cases hk : e.1 = k
      · have hsel : selKey e.2 = k := he.trans hk
        rw [valsAt_cons_eq e rest k hk, List.map_cons, List.filter_cons]
        simp [hsel, ih']
      · have hsel : ¬(selKey e.2 = k) := fun hh => hk (he.symm.trans hh)
        rw [valsAt_cons_ne e rest k hk, List.map_cons, List.filter_cons]
        simp [hsel, ih']

theorem foldDict_wf (run : List Pkg) (m : List (String × Pkg)) (h : dictWF m) :
    dictWF (foldDict run m) := by
  induction run generalizing m with
  | nil => exact h
  | cons p rest ih => exact ih _ (dictSet_wf m p h)

theorem foldDict_nodup (run : List Pkg) (m : List (String × Pkg))
    (h : (m.map Prod.fst).Nodup) : ((foldDict run m).map Prod.fst).Nodup := by
  induction run generalizing m with
  | nil => exact h
  | cons p rest ih => exact ih _ (dictSet_keys_nodup m _ _ h)

theorem foldDict_valsAt (k : String) (run : List Pkg) (m : List (String × Pkg))
    (hn : (m.map Prod.fst).Nodup) :
    valsAt (foldDict run m) k =
      Option.elim ((run.filter (fun p => selKey p = k)).getLast?)
        (valsAt m k) (fun p => [p]) := by
  induction run generalizing m with
  | nil => rfl
  | cons p rest ih =>
      rw [show foldDict (p :: rest) m = foldDict rest (dictSet m (selKey p) p) from rfl]
      rw [ih _ (dictSet_keys_nodup m _ _ hn)]
      by_cases hp : selKey p = k
      · have hm' : valsAt (dictSet m (selKey p) p) k = [p] := by
          rw [hp]; exact valsAt_dictSet_self m k p hn
        have hfil : (p :: rest).filter (fun q => selKey q = k) =
            p :: rest.filter (fun q => selKey q = k) := by
          simp [List.filter_cons, hp]
        rw [hfil]
        cases hxs : rest.filter (fun q => selKey q = k) with
        | nil => simp [hm']
        | cons y ys =>
            rw [List.getLast?_cons_cons,
              List.getLast?_eq_getLast (y :: ys) (by simp)]
            rfl
      · have hfil : (p :: rest).filter (fun q => selKey q = k) =
            rest.filter (fun q => selKey q = k) := by
          simp [List.filter_cons, hp]
        rw [hfil, valsAt_dictSet_ne m (selKey p) k p hp]

/-- C2: per run of same-identity packages, the latest-slot reducer in
non-partial mode retains, for every slot key (live and non-live slots being
independent keys), exactly the last package of the run carrying that slot
key — one latest non-live and one latest live package per slot — and in
particular the input `[A-slot1-v1, A-slot1-v2, A-slot2-v1, B-slot1-v1]`
yields exactly `[A-slot1-v2, A-slot2-v1, B-slot1-v1]`, and one live plus one
non-live package in the same slot are both retained. -/
theorem latest_slot_reducer :
    (∀ (run : List Pkg) (k : String),
      (selectRun run).filter (fun p => selKey p = k) =
        Option.elim ((run.filter (fun p => selKey p = k)).getLast?)
          [] (fun p => [p])) ∧
    latestPkgsFilter
        [⟨"A", "1", false, 1⟩, ⟨"A", "1", false, 2⟩, ⟨"A", "2", false, 1⟩,
          ⟨"B", "1", false, 1⟩] =
      [⟨"A", "1", false, 2⟩, ⟨"A", "2", false, 1⟩, ⟨"B", "1", false, 1⟩] ∧
    latestPkgsFilter [⟨"A", "1", false, 5⟩, ⟨"A", "1", true, 6⟩] =
      [⟨"A", "1", false, 5⟩, ⟨"A", "1", true, 6⟩] := by
  refine ⟨fun run k => ?_, ?_, ?_⟩
  · have hwf : dictWF (foldDict run []) := foldDict_wf run [] (by intro e he; cases he)
    rw [selectRun, selval_filter _ k hwf, foldDict_valsAt k run [] (by simp)]
    rfl
  · simp [latestPkgsFilter, runsBy, selectRun, foldDict, dictSet, selKey,
      List.takeWhile, List.dropWhile]
  · simp [latestPkgsFilter, runsBy, selectRun, foldDict, dictSet, selKey,
      List.takeWhile, List.dropWhile]

theorem filteredKeysAux_some [DecidableEq κ] (ks : List κ) : ∀ k : κ,
    filteredKeysAux (some k) ks = (runsBy id (k :: ks)).filterMap List.head? := by
  induction ks with
  | nil =>
      intro k
      simp [filteredKeysAux, runsBy]
  | cons k' rest ih =>
      intro k
      by_cases h : k' = k
      · subst h
        rw [show filteredKeysAux (some k') (k' :: rest) = filteredKeysAux (some k') rest
          from by simp [filteredKeysAux]]
        rw [ih k']
        simp [runsBy, List.takeWhile_cons, List.dropWhile_cons, List.filterMap_cons]
      · rw [show filteredKeysAux (some k) (k' :: rest) = k :: filteredKeysAux (some k') rest
          from by simp [filteredKeysAux, h]]
        rw [ih k']
        have hne : ¬(k' = k) := h
        simp [runsBy, List.takeWhile_cons, List.dropWhile_cons, hne,
          List.filterMap_cons]

theorem filteredKeysAux_none [DecidableEq κ] (ks : List κ) :
    filteredKeysAux none ks = (runsBy id ks).filterMap List.head? := by
  cases ks with
  | nil => simp [filteredKeysAux, runsBy]
  | cons k rest =>
      rw [show filteredKeysAux none (k :: rest) = filteredKeysAux (some k) rest
        from by simp [filteredKeysAux]]
      exact filteredKeysAux_some rest k

theorem runsBy_map [DecidableEq κ] (f : α → κ) (l : List α) :
    runsBy id (l.map f) = (runsBy f l).map (List.map f) := by
  induction l using runsBy.induct f with
  | case1 => simp [runsBy]
  | case2 p rest ih =>
      rw [List.map_cons, runsBy, runsBy]
      rw [List.takeWhile_map, List.dropWhile_map]
      have hpred : ((fun q => decide (id q = id (f p))) ∘ f) =
          (fun q => decide (f q = f p)) := by
        funext q; simp
      rw [hpred, ih]
      simp

theorem runsBy_heads_subset [DecidableEq κ] (ks : List κ) (x : κ) :
    x ∈ (runsBy id ks).filterMap List.head? → x ∈ ks := by
  induction ks using @runsBy.induct κ κ _ id with
  | case1 => simp [runsBy]
  | case2 k rest ih =>
      intro hx
      rw [runsBy, List.filterMap_cons] at hx
      simp only [List.head?_cons] at hx
      rcases List.mem_cons.mp hx with h | h
      · exact h ▸ List.mem_cons_self _ _
      · exact List.mem_cons_of_mem _
          ((List.dropWhile_sublist _).subset (ih h))

theorem dropWhile_eq_gt [LinearOrder κ] (k : κ) (ks : List κ) :
    List.Sorted (· ≤ ·) ks → (∀ y ∈ ks, k ≤ y) →
    ∀ x ∈ ks.dropWhile (fun y => decide (id y = id k)), k < x := by
  induction ks with
  | nil => simp
  | cons y t ih =>
      intro hs hle x hx
      by_cases hy : y = k
      · rw [List.dropWhile_cons, if_pos (by simp [hy])] at hx
        exact ih hs.of_cons (fun z hz => hle z (List.mem_cons_of_mem _ hz)) x hx
      · rw [List.dropWhile_cons, if_neg (by simp [hy])] at hx
        have hky : k < y :=
          lt_of_le_of_ne (hle y (List.mem_cons_self _ _)) (fun hh => hy hh.symm)
        rcases List.mem_cons.mp hx with h | h
        · exact h ▸ hky
        · exact lt_of_lt_of_le hky (List.rel_of_sorted_cons hs x h)

theorem runsHeads_sorted [LinearOrder κ] (ks : List κ) :
    List.Sorted (· ≤ ·) ks →
    List.Sorted (· < ·) ((runsBy id ks).filterMap List.head?) := by
  induction ks using @runsBy.induct κ κ _ id with
  | case1 => simp [runsBy]
  | case2 k rest ih =>
      intro hs
      rw [runsBy, List.filterMap_cons]
      simp only [List.head?_cons]
      rw [List.sorted_cons]
      refine ⟨fun x hx => ?_,
        ih (List.Pairwise.sublist (List.dropWhile_sublist _) hs.of_cons)⟩
      exact dropWhile_eq_gt k rest hs.of_cons (List.rel_of_sorted_cons hs) x
        (runsBy_heads_subset _ x hx)

/-- C9: the deduplicating sources emit the key of each maximal contiguous run
of equal-keyed packages exactly once, in stream order; a key that reappears
after an intervening different key is emitted again (`[0, 1, 0]` yields
`[0, 1, 0]`); and when the wrapped stream's keys are sorted the emitted keys
are globally distinct. -/
theorem filtered_source_spec :
    (∀ (κ α : Type) [DecidableEq κ] (f : α → κ) (l : List α),
      filteredSource f l = (runsBy f l).filterMap (fun c => c.head?.map f)) ∧
    (∀ (κ α : Type) [LinearOrder κ] (f : α → κ) (l : List α),
      List.Sorted (· ≤ ·) (l.map f) → (filteredSource f l).Nodup) ∧
    filteredSource (fun n : Nat => n) [0, 1, 0] = [0, 1, 0] := by
  have key : ∀ (κ α : Type) [DecidableEq κ] (f : α → κ) (l : List α),
      filteredSource f l = (runsBy f l).filterMap (fun c => c.head?.map f) := by
    intro κ α _ f l
    rw [filteredSource, filteredKeysAux_none, runsBy_map, List.filterMap_map]
    refine List.filterMap_congr (fun c _ => ?_)
    simp [List.head?_map]
  refine ⟨key, fun κ α _ f l hs => ?_, by decide⟩
  rw [filteredSource, filteredKeysAux_none]
  exact (runsHeads_sorted (l.map f) hs).nodup

/-- Witness for `filtered_source_spec`: a sorted stream of keys yields
globally distinct emitted identities. -/
theorem filtered_source_spec_witness :
    List.Sorted (· ≤ ·) ([0, 0, 1].map (fun n : Nat => n)) ∧
    (filteredSource (fun n : Nat => n) [0, 0, 1]).Nodup :=
  ⟨by decide, filtered_source_spec.2.1 Nat Nat (fun n => n) [0, 0, 1] (by decide)⟩

theorem countMeta_append (a b : List CheckResult) :
    countMeta (a ++ b) = countMeta a + countMeta b := by
  simp [countMeta, List.filter_append]

theorem countMeta_findings (l : List Nat) :
    countMeta (l.map CheckResult.finding) = 0 := by
  induction l with
  | nil => rfl
  | cons x r ih => simp [countMeta, List.filter_cons]

theorem handleCalls_state_mem (os : List Outcome) :
    ∀ (st : List (Nat × String)) (k : Nat × String),
    k ∈ (handleCalls st os).1 ↔ k ∈ st ∨ k ∈ excKeys os := by
  induction os with
  | nil => intro st k; simp [handleCalls, excKeys]
  | cons o rest ih =>
      intro st k
      cases o with
      | ok r => simpa [handleCalls, handleCall, excKeys] using ih st k
      | exc e =>
          by_cases hk : (e.pkg, e.error) ∈ st
          · rw [show handleCalls st (Outcome.exc e :: rest) =
                ((handleCalls st rest).1, [] ++ (handleCalls st rest).2) from by
              simp [handleCalls, handleCall, hk]]
            simp only [excKeys, List.filterMap_cons]
            rw [show (excKeys rest : List (Nat × String)) =
              rest.filterMap (fun o => match o with
                | .exc e => some (e.pkg, e.error)
                | .ok _ => none) from rfl] at ih
            constructor
            · intro h
              rcases (ih st k).mp h with h | h
              · exact Or.inl h
              · exact Or.inr (List.mem_cons_of_mem _ h)
            · intro h
              rcases h with h | h
              · exact (ih st k).mpr (Or.inl h)
              · rcases List.mem_cons.mp h with h | h
                · exact (ih st k).mpr (Or.inl (h ▸ hk))
                · exact (ih st k).mpr (Or.inr h)
          · rw [show handleCalls st (Outcome.exc e :: rest) =
                ((handleCalls ((e.pkg, e.error) :: st) rest).1,
                  [CheckResult.metadataError e.attr (errorStr e.error) e.pkg] ++
                    (handleCalls ((e.pkg, e.error) :: st) rest).2) from by
              simp [handleCalls, handleCall, hk]]
            simp only [excKeys, List.filterMap_cons]
            rw [show (excKeys rest : List (Nat × String)) =
              rest.filterMap (fun o => match o with
                | .exc e => some (e.pkg, e.error)
                | .ok _ => none) from rfl] at ih
            constructor
            · intro h
              rcases (ih _ k).mp h with h | h
              · rcases List.mem_cons.mp h with h | h
                · exact Or.inr (h ▸ List.mem_cons_self _ _)
                · exact Or.inl h
              · exact Or.inr (List.mem_cons_of_mem _ h)
            · intro h
              rcases h with h | h
              · exact (ih _ k).mpr (Or.inl (List.mem_cons_of_mem _ h))
              · rcases List.mem_cons.mp h with h | h
                · exact (ih _ k).mpr (Or.inl (h ▸ List.mem_cons_self _ _))
                · exact (ih _ k).mpr (Or.inr h)

theorem handleCalls_state_finset (os : List Outcome) (st : List (Nat × String)) :
    (handleCalls st os).1.toFinset = st.toFinset ∪ (excKeys os).toFinset := by
  ext k
  simp [List.mem_toFinset, handleCalls_state_mem os st k]

theorem handleCalls_countMeta (os : List Outcome) : ∀ st : List (Nat × String),
    countMeta (handleCalls st os).2 + st.toFinset.card =
      (handleCalls st os).1.toFinset.card := by
  induction os with
  | nil => intro st; simp [handleCalls, countMeta]
  | cons o rest ih =>
      intro st
      cases o with
      | ok r =>
          rw [show handleCalls st (Outcome.ok r :: rest) =
              ((handleCalls st rest).1,
                r.map CheckResult.finding ++ (handleCalls st rest).2) from by
            simp [handleCalls, handleCall]]
          rw [countMeta_append, countMeta_findings]
          simpa using ih st
      | exc e =>
          by_cases hk : (e.pkg, e.error) ∈ st
          · rw [show handleCalls st (Outcome.exc e :: rest) =
                ((handleCalls st rest).1, [] ++ (handleCalls st rest).2) from by
              simp [handleCalls, handleCall, hk]]
            simpa using ih st
          · rw [show handleCalls st (Outcome.exc e :: rest) =
                ((handleCalls ((e.pkg, e.error) :: st) rest).1,
                  [CheckResult.metadataError e.attr (errorStr e.error) e.pkg] ++
                    (handleCalls ((e.pkg, e.error) :: st) rest).2) from by
              simp [handleCalls, handleCall, hk]]
            dsimp only
            rw [countMeta_append]
            have h1 := ih ((e.pkg, e.error) :: st)
            have h2 : (((e.pkg, e.error) :: st).toFinset).card =
                st.toFinset.card + 1 := by
              rw [List.toFinset_cons,
                Finset.card_insert_of_not_mem (by simpa using hk)]
            have h3 : countMeta [CheckResult.metadataError e.attr
                (errorStr e.error) e.pkg] = 1 := rfl
            omega

theorem handleCalls_append (a b : List Outcome) : ∀ st : List (Nat × String),
    handleCalls st (a ++ b) =
      ((handleCalls (handleCalls st a).1 b).1,
        (handleCalls st a).2 ++ (handleCalls (handleCalls st a).1 b).2) := by
  induction a with
  | nil => intro st; simp [handleCalls]
  | cons o a' ih =>
      intro st
      simp only [List.cons_append, handleCalls, List.append_eq,
        ih (handleCall st o).1, List.append_assoc]

theorem feedFold_eq (items : List (List Outcome)) :
    ∀ (st : List (Nat × String)) (acc : List CheckResult),
    items.foldl feedStep (st, acc) =
      ((handleCalls st items.flatten).1,
        acc ++ (handleCalls st items.flatten).2) := by
  induction items with
  | nil => intro st acc; simp [handleCalls]
  | cons i rest ih =>
      intro st acc
      rw [List.foldl_cons,
        show feedStep (st, acc) i =
          ((handleCalls st i).1, acc ++ (handleCalls st i).2) from rfl,
        ih, List.flatten_cons, handleCalls_append, List.append_assoc]

theorem excKeys_append (a b : List Outcome) :
    excKeys (a ++ b) = excKeys a ++ excKeys b := by
  simp [excKeys, List.filterMap_append]

theorem lifeFold_countMeta (runs : List (List (List Outcome))) :
    ∀ (st : List (Nat × String)) (acc : List CheckResult),
    countMeta ((runs.map (fun r => (r, ([] : List MetaExc)))).foldl lifeStep
        (st, acc)).2 + st.toFinset.card =
      countMeta acc + (st.toFinset ∪ (excKeys runs.flatten.flatten).toFinset).card := by
  induction runs with
  | nil => intro st acc; simp [excKeys]
  | cons r rest ih =>
      intro st acc
      rw [List.map_cons, List.foldl_cons]
      have hstep : lifeStep (st, acc) (r, ([] : List MetaExc)) =
          ((handleCalls st r.flatten).1,
            acc ++ (handleCalls st r.flatten).2) := by
        simp [lifeStep, runnerRun, feedFold, feedFold_eq]
      rw [hstep]
      have hih := ih (handleCalls st r.flatten).1
        (acc ++ (handleCalls st r.flatten).2)
      rw [countMeta_append] at hih
      have hc := handleCalls_countMeta r.flatten st
      have hfin := handleCalls_state_finset r.flatten st
      rw [hfin] at hih hc
      have hall : (excKeys ((r :: rest).flatten.flatten)).toFinset =
          (excKeys r.flatten).toFinset ∪ (excKeys rest.flatten.flatten).toFinset := by
        rw [List.flatten_cons, List.flatten_append, excKeys_append,
          List.toFinset_append]
      rw [hall, ← Finset.union_assoc]
      omega

/-- C1 (amended): metadata-extraction errors raised during `start()` or
`feed()` calls produce exactly one metadata-error finding per distinct
`(entity, error-text)` key for the life of the runner — the dedup set
persists across the start and feed phases of all runs; the metadata errors
buffered out-of-band by the source, however, are drained after the entity
stream is exhausted without consulting or updating the dedup set — each
buffered occurrence is reported unconditionally — and the buffer is
cleared. -/
theorem metadata_error_dedup :
    (∀ (s : List Outcome) (runs : List (List (List Outcome))),
      countMeta (runnerLife s (runs.map (fun r => (r, ([] : List MetaExc))))) =
        (excKeys (s ++ runs.flatten.flatten)).toFinset.card) ∧
    (∀ (st : List (Nat × String)) (items : List (List Outcome))
        (srcErrs : List MetaExc),
      (runnerRun st items srcErrs).2.1 = [] ∧
      (runnerRun st items srcErrs).2.2 =
        (runnerRun st items []).2.2 ++ srcErrs.map (fun e =>
          CheckResult.metadataError e.attr (errorStr e.error) e.pkg) ∧
      (runnerRun st items srcErrs).1 = (runnerRun st items []).1) := by
  constructor
  · intro s runs
    have hH := lifeFold_countMeta runs (handleCalls [] s).1 (handleCalls [] s).2
    rw [Prod.mk.eta] at hH
    have hc := handleCalls_countMeta s []
    have hfin := handleCalls_state_finset s []
    have hempty : (([] : List (Nat × String)).toFinset) = ∅ := rfl
    rw [hempty, Finset.empty_union] at hfin
    rw [hfin] at hH hc
    simp only [hempty, Finset.card_empty] at hc
    have hsplit : (excKeys (s ++ runs.flatten.flatten)).toFinset =
        (excKeys s).toFinset ∪ (excKeys runs.flatten.flatten).toFinset := by
      rw [excKeys_append, List.toFinset_append]
    rw [runnerLife, runnerStart, hsplit]
    omega
  · intro st items srcErrs
    refine ⟨rfl, ?_, rfl⟩
    simp [runnerRun]

/-- Counterexample to C1 as stated: a feed call raises the metadata error
`(pkg 0, "boom")` and the same error sits in the source's buffered
`metadata_errors`; the drain does not consult the dedup set, so the same
key is reported twice by a single `run()` call. -/
theorem metadata_error_dedup_counterexample :
    (runnerRun [] [[Outcome.exc ⟨0, "a", "boom"⟩]] [⟨0, "a", "boom"⟩]).2.2 =
      [CheckResult.metadataError "a" "boom" 0,
        CheckResult.metadataError "a" "boom" 0] ∧
    countMeta (runnerRun [] [[Outcome.exc ⟨0, "a", "boom"⟩]]
      [⟨0, "a", "boom"⟩]).2.2 = 2 := by
  constructor <;> rfl

theorem pickIdx_mem : ∀ (l : List α) (i : Nat) (a : α) (rest : List α),
    pickIdx l i = some (a, rest) → a ∈ l ∧ ∀ x ∈ rest, x ∈ l := by
  intro l
  induction l with
  | nil => intro i a rest h; simp [pickIdx] at h
  | cons b t ih =>
      intro i a rest h
      cases i with
      | zero =>
          simp only [pickIdx, Option.some.injEq, Prod.mk.injEq] at h
          refine ⟨h.1 ▸ List.mem_cons_self _ _, fun x hx => ?_⟩
          exact List.mem_cons_of_mem _ (h.2 ▸ hx)
      | succ n =>
          simp only [pickIdx] at h
          cases hp : pickIdx t n with
          | none => rw [hp] at h; simp at h
          | some pr =>
              obtain ⟨b', rest'⟩ := pr
              rw [hp] at h
              simp only [Option.some.injEq, Prod.mk.injEq] at h
              obtain ⟨hm, hmem⟩ := ih n b' rest' hp
              refine ⟨List.mem_cons_of_mem _ (h.1 ▸ hm), fun x hx => ?_⟩
              rw [← h.2] at hx
              rcases List.mem_cons.mp hx with hx | hx
              · exact hx ▸ List.mem_cons_self _ _
              · exact List.mem_cons_of_mem _ (hmem x hx)

theorem applyPerm_mem : ∀ (sched : List Nat) (l : List α) (x : α),
    x ∈ applyPerm sched l → x ∈ l := by
  intro sched
  induction sched with
  | nil => intro l x h; simpa [applyPerm] using h
  | cons i is ih =>
      intro l x h
      rw [applyPerm] at h
      cases hp : pickIdx l i with
      | none => rw [hp] at h; exact ih l x h
      | some pr =>
          obtain ⟨a, rest⟩ := pr
          rw [hp] at h
          rcases List.mem_cons.mp h with h | h
          · exact h ▸ (pickIdx_mem l i a rest hp).1
          · exact (pickIdx_mem l i a rest hp).2 x (ih rest x h)

theorem none_not_mem_serial (ps : List RunnerPipe) (r : Nat) :
    (none : Option (List Nat)) ∉ serialRunMsgs ps r := by
  simp only [serialRunMsgs]
  by_cases h : (ps.flatMap (fun p => p.runR r)).isEmpty <;> simp [h]

theorem startMsgs_shape (cfg : ScanConfig) :
    ∀ b ∈ startMsgs cfg, b = some ((allPipes cfg).flatMap (fun p => p.startR)) := by
  simp only [startMsgs]
  by_cases h : ((allPipes cfg).flatMap (fun p => p.startR)).isEmpty <;> simp [h]

theorem finishMsgs_shape (cfg : ScanConfig) :
    ∀ b ∈ finishMsgs cfg, b = some ((allPipes cfg).flatMap (fun p => p.finR)) := by
  simp only [finishMsgs]
  by_cases h : ((allPipes cfg).flatMap (fun p => p.finR)).isEmpty <;> simp [h]

theorem none_not_mem_startMsgs (cfg : ScanConfig) :
    (none : Option (List Nat)) ∉ startMsgs cfg := by
  intro h
  cases startMsgs_shape cfg none h

theorem none_not_mem_finishMsgs (cfg : ScanConfig) :
    (none : Option (List Nat)) ∉ finishMsgs cfg := by
  intro h
  cases finishMsgs_shape cfg none h

theorem none_not_mem_runMsgs (cfg : ScanConfig) (sched : List Nat) :
    (none : Option (List Nat)) ∉ runMsgs cfg sched := by
  simp only [runMsgs]
  by_cases h1 : cfg.scanScope = version_scope
  · rw [if_pos h1]; exact none_not_mem_serial _ _
  · rw [if_neg h1]
    by_cases h2 : cfg.scanScope = package_scope
    · rw [if_pos h2]
      cases cfg.jobsOpt with
      | none => exact none_not_mem_serial _ _
      | some j => simp
    · rw [if_neg h2]
      intro hmem
      rcases List.mem_append.mp hmem with h | h
      · by_cases hp :
          ((((cfg.pipes.filter (fun sp => sp.1 ≤ package_scope)).map Prod.snd).flatten :
            List RunnerPipe)).isEmpty
        · rw [if_pos hp] at h; cases h
        · rw [if_neg hp] at h
          have hm := applyPerm_mem sched _ _ h
          simp at hm
      · exact none_not_mem_serial _ _ h

/-- C5: for every scan configuration and every concurrent completion order,
the message sequence on the results channel decomposes into the start-phase
pushes, then the run-phase pushes, then the finish-phase pushes, then a
terminal `None`: start findings always precede run findings, which precede
finish findings, no phase pushes a `None`, and exactly one end-of-stream
marker is pushed, last. -/
theorem pipeline_phase_order (cfg : ScanConfig) (sched : List Nat) :
    pipelineRun cfg sched =
      startMsgs cfg ++ runMsgs cfg sched ++ finishMsgs cfg ++ [none] ∧
    (∀ b ∈ startMsgs cfg,
      b = some ((allPipes cfg).flatMap (fun p => p.startR))) ∧
    (∀ b ∈ finishMsgs cfg,
      b = some ((allPipes cfg).flatMap (fun p => p.finR))) ∧
    (none : Option (List Nat)) ∉ startMsgs cfg ∧
    (none : Option (List Nat)) ∉ runMsgs cfg sched ∧
    (none : Option (List Nat)) ∉ finishMsgs cfg ∧
    (pipelineRun cfg sched).getLast? = some none ∧
    (pipelineRun cfg sched).count none = 1 := by
  refine ⟨rfl, startMsgs_shape cfg, finishMsgs_shape cfg,
    none_not_mem_startMsgs cfg, none_not_mem_runMsgs cfg sched,
    none_not_mem_finishMsgs cfg, ?_, ?_⟩
  · rw [pipelineRun, List.getLast?_concat]
  · rw [pipelineRun, List.count_append, List.count_append, List.count_append]
    rw [List.count_eq_zero.mpr (none_not_mem_startMsgs cfg),
      List.count_eq_zero.mpr (none_not_mem_runMsgs cfg sched),
      List.count_eq_zero.mpr (none_not_mem_finishMsgs cfg)]
    rfl

/-- Witness for `pipeline_phase_order` at a concrete configuration with one
runner at version scope: the start batch is pushed, no `None` precedes the
single terminal marker. -/
theorem pipeline_phase_order_witness :
    some [10] ∈ startMsgs sampleCfg ∧
    some [10] = some ((allPipes sampleCfg).flatMap (fun p => p.startR)) ∧
    pipelineRun sampleCfg [] =
      startMsgs sampleCfg ++ runMsgs sampleCfg [] ++ finishMsgs sampleCfg ++
        [none] ∧
    (pipelineRun sampleCfg []).count none = 1 := by
  have h := pipeline_phase_order sampleCfg []
  have hmem : some [10] ∈ startMsgs sampleCfg := by
    simp [startMsgs, sampleCfg, allPipes]
  exact ⟨hmem, h.2.1 (some [10]) hmem, h.1, h.2.2.2.2.2.2.2⟩

/-- C6: at version scope — and at package scope when no explicit job count
was requested — the dispatch runs every runner's `run(restriction)`
serially in the calling process in registration order: the run phase is the
single serial batch over `chain.from_iterable(self.pipes.values())` and is
independent of any concurrent schedule (no worker pool is used). -/
theorem serial_dispatch (cfg : ScanConfig) (sched : List Nat)
    (h : cfg.scanScope = version_scope ∨
      (cfg.scanScope = package_scope ∧ cfg.jobsOpt = none)) :
    runMsgs cfg sched = serialRunMsgs (allPipes cfg) cfg.restrict ∧
    ∀ sched', runMsgs cfg sched = runMsgs cfg sched' := by
  have key : ∀ s : List Nat,
      runMsgs cfg s = serialRunMsgs (allPipes cfg) cfg.restrict := by
    intro s
    rcases h with h | ⟨h, hj⟩
    · simp only [runMsgs, if_pos h]
    · have h1 : ¬(cfg.scanScope = version_scope) := by rw [h]; decide
      simp only [runMsgs, if_neg h1, if_pos h, hj]
  exact ⟨key sched, fun sched' => (key sched).trans (key sched').symm⟩

/-- Witness for `serial_dispatch` at a version-scope configuration. -/
theorem serial_dispatch_witness :
    (sampleCfg.scanScope = version_scope ∨
      (sampleCfg.scanScope = package_scope ∧ sampleCfg.jobsOpt = none)) ∧
    runMsgs sampleCfg [3] = serialRunMsgs (allPipes sampleCfg) sampleCfg.restrict :=
  ⟨Or.inl rfl, (serial_dispatch sampleCfg [3] (Or.inl rfl)).1⟩

theorem getD_true_lt (l : List Bool) (w : Nat) (h : l.getD w false = true) :
    w < l.length := by
  by_contra hw
  push_neg at hw
  rw [List.getD_eq_getElem?_getD, List.getElem?_eq_none hw] at h
  cases h

theorem getD_true_mem (l : List Bool) : ∀ w : Nat,
    l.getD w false = true → true ∈ l := by
  induction l with
  | nil => intro w h; rw [List.getD_nil] at h; cases h
  | cons b t ih =>
      intro w h
      cases w with
      | zero =>
          rw [List.getD_cons_zero] at h
          exact h ▸ List.mem_cons_self _ _
      | succ n =>
          rw [List.getD_cons_succ] at h
          exact List.mem_cons_of_mem _ (ih n h)

theorem count_true_set_false (l : List Bool) : ∀ w : Nat,
    l.getD w false = true →
    (l.set w false).count true + 1 = l.count true := by
  induction l with
  | nil => intro w h; rw [List.getD_nil] at h; cases h
  | cons b t ih =>
      intro w h
      cases w with
      | zero =>
          rw [List.getD_cons_zero] at h
          subst h
          simp [List.set, List.count_cons]
      | succ n =>
          rw [List.getD_cons_succ] at h
          have := ih n h
          simp only [List.set, List.count_cons]
          omega

theorem count_true_zero_all_false (l : List Bool) :
    l.count true = 0 → l = List.replicate l.length false := by
  induction l with
  | nil => intro _; rfl
  | cons b t ih =>
      intro h
      cases b
      · have ht : t.count true = 0 := by simpa [List.count_cons] using h
        rw [List.length_cons, List.replicate_succ, ← ih ht]
      · simp [List.count_cons] at h

theorem poolStep_inv (ids : List Nat) (jobs : Nat) (s : PoolState) (w : Nat)
    (h : PoolInv ids jobs s) : PoolInv ids jobs (poolStep s w) := by
  obtain ⟨pending, k, hq, hp, hk, hl, hjp⟩ := h
  rw [poolStep]
  by_cases hw : s.active.getD w false = true
  · rw [if_pos hw]
    cases pending with
    | cons p pending' =>
        rw [hq]
        simp only [List.map_cons, List.cons_append]
        refine ⟨pending', k, rfl, ?_, hk, hl, ?_⟩
        · rw [List.append_assoc, List.singleton_append]
          exact hp
        · rcases hjp with hj | hj
          · exact Or.inl hj
          · cases hj
    | nil =>
        rw [hq]
        simp only [List.map_nil, List.nil_append]
        cases hk0 : k with
        | zero =>
            simp only [List.replicate]
            exact ⟨[], k, hq, hp, hk, hl, hjp⟩
        | succ k' =>
            rw [List.replicate_succ]
            refine ⟨[], k', by simp, hp, ?_, by rw [List.length_set]; exact hl,
              Or.inr rfl⟩
            have hcnt := count_true_set_false s.active w hw
            dsimp only
            omega
  · rw [if_neg hw]
    exact ⟨pending, k, hq, hp, hk, hl, hjp⟩

theorem poolRun_inv (ids : List Nat) (jobs : Nat) (sched : List Nat) :
    ∀ s : PoolState, PoolInv ids jobs s → PoolInv ids jobs (poolRun s sched) := by
  induction sched with
  | nil => intro s h; exact h
  | cons w ws ih =>
      intro s h
      exact ih (poolStep s w) (poolStep_inv ids jobs s w h)

theorem initPool_inv (ids : List Nat) (jobs : Nat) :
    PoolInv ids jobs (initPool ids jobs) :=
  ⟨ids, jobs, rfl, rfl, by simp [initPool], by simp [initPool], Or.inl rfl⟩

theorem pool_no_deadlock (ids : List Nat) (jobs : Nat) (s : PoolState) (w : Nat)
    (hinv : PoolInv ids jobs s) (hw : s.active.getD w false = true) :
    s.queue ≠ [] := by
  obtain ⟨pending, k, hq, hp, hk, hl, hjp⟩ := hinv
  have hpos : 0 < s.active.count true :=
    List.count_pos_iff.mpr (getD_true_mem s.active w hw)
  intro hqe
  rw [hq, List.append_eq_nil] at hqe
  have : k = 0 := (List.replicate_eq_nil_iff _).mp hqe.2
  omega

theorem firstActive_spec : ∀ (l : List Bool) (w : Nat),
    firstActive l = some w → l.getD w false = true := by
  intro l
  induction l with
  | nil => intro w h; cases h
  | cons b t ih =>
      intro w h
      cases b
      · rw [firstActive] at h
        cases hf : firstActive t with
        | none => rw [hf] at h; cases h
        | some w' =>
            rw [hf, Option.map_some'] at h
            cases h
            rw [List.getD_cons_succ]
            exact ih w' hf
      · rw [firstActive] at h
        cases h
        rfl

theorem firstActive_none (l : List Bool) (h : firstActive l = none) :
    l.count true = 0 := by
  induction l with
  | nil => rfl
  | cons b t ih =>
      cases b
      · rw [firstActive] at h
        cases hf : firstActive t with
        | none => simpa [List.count_cons] using ih hf
        | some w => rw [hf] at h; cases h
      · rw [firstActive] at h; cases h

theorem poolComplete_spec (ids : List Nat) (jobs : Nat) (hjobs : 1 ≤ jobs) :
    ∀ (fuel : Nat) (s : PoolState), PoolInv ids jobs s →
    s.queue.length ≤ fuel →
    (poolComplete fuel s).processed = ids ∧
    (poolComplete fuel s).queue = [] ∧
    (poolComplete fuel s).active = List.replicate jobs false := by
  intro fuel
  induction fuel with
  | zero =>
      intro s hinv hlen
      obtain ⟨pending, k, hq, hp, hk, hl, hjp⟩ := hinv
      have hqe : s.queue = [] := List.length_eq_zero.mp (Nat.le_zero.mp hlen)
      rw [hq, List.append_eq_nil] at hqe
      have hpend : pending = [] := (List.map_eq_nil_iff).mp hqe.1
      have hk0 : k = 0 := (List.replicate_eq_nil_iff _).mp hqe.2
      refine ⟨?_, ?_, ?_⟩
      · rw [show (poolComplete 0 s).processed = s.processed from rfl]
        rw [← hp, hpend, List.append_nil]
      · rw [show (poolComplete 0 s).queue = s.queue from rfl, hq, hpend, hk0]
        simp
      · rw [show (poolComplete 0 s).active = s.active from rfl]
        have := count_true_zero_all_false s.active (by omega)
        rw [this, hl]
  | succ fuel ih =>
      intro s hinv hlen
      cases hf : firstActive s.active with
      | none =>
          obtain ⟨pending, k, hq, hp, hk, hl, hjp⟩ := hinv
          have hcnt := firstActive_none s.active hf
          have hk0 : k = 0 := by omega
          have hpend : pending = [] := by
            rcases hjp with hj | hj
            · exfalso; omega
            · exact hj
          rw [show poolComplete (fuel + 1) s = s from by
            rw [poolComplete, hf]]
          refine ⟨?_, ?_, ?_⟩
          · rw [← hp, hpend, List.append_nil]
          · rw [hq, hpend, hk0]; simp
          · have := count_true_zero_all_false s.active hcnt
            rw [this, hl]
      | some w =>
          have hw := firstActive_spec s.active w hf
          have hinv' := poolStep_inv ids jobs s w hinv
          have hne := pool_no_deadlock ids jobs s w hinv hw
          have hlen' : (poolStep s w).queue.length ≤ fuel := by
            cases hqe : s.queue with
            | nil => exact absurd hqe hne
            | cons q rest =>
                have hr : rest.length ≤ fuel := by
                  have h0 := hlen
                  rw [hqe] at h0
                  simpa using h0
                rw [poolStep, if_pos hw, hqe]
                cases q <;> simpa using hr
          rw [show poolComplete (fuel + 1) s = poolComplete fuel (poolStep s w)
            from by rw [poolComplete, hf]]
          exact ih (poolStep s w) hinv' hlen'

/-- C7: the producer writes each identity once into the queue followed by
exactly one sentinel per worker; under any worker schedule the processed
identities are exactly the consumed prefix of the identity list (every
identity is processed at most once, in order, and none is skipped); a
still-running worker never faces an empty queue (no deadlock, no missed
sentinel); and a complete execution terminates within queue-length steps
with every worker exited, the queue drained, and every identity processed
exactly once. -/
theorem producer_pool_spec :
    (∀ (ids : List Nat) (jobs : Nat),
      producerOutput ids jobs = ids.map some ++ List.replicate jobs none ∧
      (producerOutput ids jobs).count none = jobs) ∧
    (∀ (ids : List Nat) (jobs : Nat) (sched : List Nat),
      ∃ pending, (poolRun (initPool ids jobs) sched).processed ++ pending = ids) ∧
    (∀ (ids : List Nat) (jobs : Nat) (sched : List Nat) (w : Nat),
      (poolRun (initPool ids jobs) sched).active.getD w false = true →
      (poolRun (initPool ids jobs) sched).queue ≠ []) ∧
    (∀ (ids : List Nat) (jobs : Nat), 1 ≤ jobs →
      (poolComplete (ids.length + jobs) (initPool ids jobs)).processed = ids ∧
      (poolComplete (ids.length + jobs) (initPool ids jobs)).queue = [] ∧
      (poolComplete (ids.length + jobs) (initPool ids jobs)).active =
        List.replicate jobs false) := by
  refine ⟨fun ids jobs => ⟨rfl, ?_⟩, fun ids jobs sched => ?_,
    fun ids jobs sched w hw => ?_, fun ids jobs hjobs => ?_⟩
  · rw [producerOutput, List.count_append, List.count_replicate_self]
    have : (ids.map some).count none = 0 := by
      rw [List.count_eq_zero]
      simp
    omega
  · obtain ⟨pending, k, hq, hp, hk, hl, hjp⟩ :=
      poolRun_inv ids jobs sched (initPool ids jobs) (initPool_inv ids jobs)
    exact ⟨pending, hp⟩
  · exact pool_no_deadlock ids jobs _ w
      (poolRun_inv ids jobs sched (initPool ids jobs) (initPool_inv ids jobs)) hw
  · refine poolComplete_spec ids jobs hjobs (ids.length + jobs)
      (initPool ids jobs) (initPool_inv ids jobs) ?_
    simp [initPool, producerOutput]

/-- Witness for `producer_pool_spec`: three identities, two workers, a
concrete schedule; the first worker is still running after one step and the
queue is non-empty, and the complete execution processes all identities. -/
theorem producer_pool_spec_witness :
    (poolRun (initPool [1, 2, 3] 2) [0]).active.getD 0 false = true ∧
    (poolRun (initPool [1, 2, 3] 2) [0]).queue ≠ [] ∧
    1 ≤ 2 ∧
    (poolComplete 5 (initPool [1, 2, 3] 2)).processed = [1, 2, 3] ∧
    (poolComplete 5 (initPool [1, 2, 3] 2)).active = List.replicate 2 false :=
  ⟨by decide,
    producer_pool_spec.2.2.1 [1, 2, 3] 2 [0] 0 (by decide),
    by decide,
    (producer_pool_spec.2.2.2 [1, 2, 3] 2 (by decide)).1,
    (producer_pool_spec.2.2.2 [1, 2, 3] 2 (by decide)).2.2⟩

/-- C10: in non-local mode each rename (R-status) file change with two
well-formed atoms is recorded as exactly two package-change records — an
addition of the new atom followed by a removal of the old one — while in
local mode it is recorded as a single `R` change carrying the old atom as
extra data; A/D/M changes give one record; file changes whose paths do not
form well-formed atoms, and unmatched lines, are silently skipped. -/
theorem rename_split_spec (hash date : String) (o n a : String) (st : Char) :
    pkgChangesOfLine false hash date (LogLine.ren (some o) (some n)) =
      [⟨n, 'A', hash, date, none⟩, ⟨o, 'D', hash, date, none⟩] ∧
    pkgChangesOfLine true hash date (LogLine.ren (some o) (some n)) =
      [⟨n, 'R', hash, date, some o⟩] ∧
    pkgChangesOfLine false hash date (LogLine.adm st (some a)) =
      [⟨a, st, hash, date, none⟩] ∧
    (∀ isLocal, pkgChangesOfLine isLocal hash date (LogLine.ren none (some n)) = []) ∧
    (∀ isLocal, pkgChangesOfLine isLocal hash date (LogLine.ren (some o) none) = []) ∧
    (∀ isLocal, pkgChangesOfLine isLocal hash date (LogLine.adm st none) = []) ∧
    (∀ isLocal, pkgChangesOfLine isLocal hash date LogLine.other = []) :=
  ⟨rfl, rfl, rfl, fun _ => rfl, fun _ => rfl, fun _ => rfl, fun _ => rfl⟩

theorem pkgHistoryAux_extends : ∀ (l : List GitPkgChange)
    (seen : List (String × Char)) (data : List HistEntry),
    ∃ ext, pkgHistoryAux seen data l = data ++ ext := by
  intro l
  induction l with
  | nil => intro seen data; exact ⟨[], (List.append_nil data).symm⟩
  | cons ch rest ih =>
      intro seen data
      rw [pkgHistoryAux]
      by_cases hm : (ch.atom, ch.status) ∈ seen
      · rw [if_pos hm]; exact ih seen data
      · rw [if_neg hm]
        obtain ⟨ext, hext⟩ := ih ((ch.atom, ch.status) :: seen)
          (data ++ [⟨ch.atom, ch.status, ch.commitDate, ch.commit⟩])
        exact ⟨⟨ch.atom, ch.status, ch.commitDate, ch.commit⟩ :: ext, by
          rw [hext, List.append_assoc, List.singleton_append]⟩

theorem dropWhile_head_false (p : α → Bool) : ∀ (l : List α) (h : α) (t : List α),
    l.dropWhile p = h :: t → p h = false := by
  intro l
  induction l with
  | nil => intro h t hd; cases hd
  | cons a rest ih =>
      intro h t hd
      rw [List.dropWhile_cons] at hd
      by_cases hp : p a = true
      · rw [if_pos hp] at hd; exact ih h t hd
      · rw [if_neg hp] at hd
        cases hd
        cases hpa : p a
        · rfl
        · exact absurd hpa hp

/-- C8: with no prior cache the whole history is walked; with a prior cache
stamped with a revision different from the current head only the commits in
the range `stored..head` are parsed, the prior data being extended in
place; with an up-to-date cache nothing is parsed and nothing is saved; a
record is written to disk only when the cache was created or changed; and
commits at or before the stored revision are never re-parsed. -/
theorem update_cache_spec (head : String) (history : List Commit)
    (gc : GitCacheRec) :
    (update_cache head history none).parsed = history ∧
    (gc.commit ≠ head →
      (update_cache head history (some gc)).parsed =
        commitRange (some gc.commit) history ∧
      ∃ ext, (update_cache head history (some gc)).cache =
        some ⟨head, gc.data ++ ext⟩) ∧
    (gc.commit = head →
      (update_cache head history (some gc)).parsed = [] ∧
      (update_cache head history (some gc)).cache = some gc ∧
      (update_cache head history (some gc)).saved = false) ∧
    (∀ prior : Option GitCacheRec,
      (update_cache head history prior).saved = true →
      prior = none ∨ ∃ gc', prior = some gc' ∧ gc'.commit ≠ head) ∧
    ((history.map Commit.hash).Nodup →
      ∀ c ∈ (update_cache head history (some gc)).parsed,
        c.hash ∉ (history.takeWhile (fun d => ¬(d.hash = gc.commit))).map
          Commit.hash ∧
        c.hash ≠ gc.commit) := by
  refine ⟨rfl, fun hne => ?_, fun heq => ?_, fun prior hs => ?_, fun hnd c hc => ?_⟩
  · obtain ⟨ext, hext⟩ := pkgHistoryAux_extends
      ((commitRange (some gc.commit) history).flatMap
        (fun c => pkgChangesOfCommit false c.hash c.date c.lines)) [] gc.data
    constructor
    · simp only [update_cache, if_neg hne]
    · refine ⟨ext, ?_⟩
      simp only [update_cache, if_neg hne, pkg_history]
      rw [hext]
  · simp [update_cache, if_pos heq]
  · cases prior with
    | none => exact Or.inl rfl
    | some gc' =>
        by_cases hc : gc'.commit = head
        · rw [show update_cache head history (some gc') = ⟨[], some gc', false⟩
            from by simp only [update_cache, if_pos hc]] at hs
          cases hs
        · exact Or.inr ⟨gc', rfl, hc⟩
  · by_cases hch : gc.commit = head
    · rw [show (update_cache head history (some gc)).parsed = [] from by
        simp only [update_cache, if_pos hch]] at hc
      cases hc
    · rw [show (update_cache head history (some gc)).parsed =
          (history.dropWhile (fun d => ¬(d.hash = gc.commit))).tail from by
        simp only [update_cache, if_neg hch, commitRange]] at hc
      have hsplit := List.takeWhile_append_dropWhile
        (p := fun d => ¬(d.hash = gc.commit)) (l := history)
      rw [← hsplit, List.map_append, List.nodup_append] at hnd
      obtain ⟨hn1, hn2, hdisj⟩ := hnd
      cases hdw : history.dropWhile (fun d => ¬(d.hash = gc.commit)) with
      | nil => rw [hdw] at hc; cases hc
      | cons h0 t =>
          rw [hdw] at hc
          have hcm : c ∈ h0 :: t := List.mem_cons_of_mem _ hc
          have hmap : c.hash ∈ (history.dropWhile
              (fun d => ¬(d.hash = gc.commit))).map Commit.hash := by
            rw [hdw]
            exact List.mem_map_of_mem _ hcm
          refine ⟨fun hmem => hdisj hmem hmap, ?_⟩
          have hh0 : h0.hash = gc.commit := by
            have := dropWhile_head_false _ history h0 t hdw
            simpa using this
          have hn2' : (Commit.hash h0) ∉ t.map Commit.hash := by
            rw [hdw, List.map_cons, List.nodup_cons] at hn2
            exact hn2.1
          intro hch'
          apply hn2'
          rw [hh0, ← hch']
          exact List.mem_map_of_mem _ hc

/-- Witness for `update_cache_spec`: a two-commit history with a prior cache
stamped at the first commit parses only the second commit, extends the
prior data in place, and never re-parses the first commit. -/
theorem update_cache_spec_witness :
    (("h1" : String) ≠ "h2" →
      (update_cache "h2"
          [⟨"h1", "d1", []⟩, ⟨"h2", "d2", [LogLine.adm 'A' (some "c/p")]⟩]
          (some ⟨"h1", []⟩)).parsed =
        commitRange (some "h1")
          [⟨"h1", "d1", []⟩, ⟨"h2", "d2", [LogLine.adm 'A' (some "c/p")]⟩] ∧
      ∃ ext, (update_cache "h2"
          [⟨"h1", "d1", []⟩, ⟨"h2", "d2", [LogLine.adm 'A' (some "c/p")]⟩]
          (some ⟨"h1", []⟩)).cache = some ⟨"h2", [] ++ ext⟩) ∧
    (([⟨"h1", "d1", []⟩, ⟨"h2", "d2", [LogLine.adm 'A' (some "c/p")]⟩] :
        List Commit).map Commit.hash).Nodup := by
  constructor
  · exact (update_cache_spec "h2"
      [⟨"h1", "d1", []⟩, ⟨"h2", "d2", [LogLine.adm 'A' (some "c/p")]⟩]
      ⟨"h1", []⟩).2.1
  · decide

end Pkgcheck
